import Mathlib

/-!
Verification of the devito access/dependence analysis engine, halo-scheme
derivation, cluster formation and autotuner against their specification.

The definitions below are a shallow embedding of the Python source:

* `devito/ir/support/basic.py`   (Vector, IterationInstance, TimedAccess,
  Dependence, Scope)
* `devito/mpi/halo_scheme.py`    (hs_classify, hs_comp_halos)
* `devito/ir/clusters/cluster.py` (PartialCluster.squash)
* `devito/core/autotuning.py`    (autotune)

Symbolic index expressions are embedded as canonical affine forms over a
fixed universe of `V` iteration symbols: a coefficient vector plus an
integer constant.  This matches the source's documented comparability
model ("pair-wise indices are affine functions of the same variables"):
an expression reduces to a concrete integer (Python `int(...)` succeeds)
exactly when every symbolic coefficient vanishes, and SymPy structural
equality of such canonical forms is component-wise equality.
-/

namespace Devito

/-- An iteration dimension: an identifier, the identifier of its root
dimension, and whether it is traversed in reverse (decreasing) order. -/
structure Dim where
  id : Nat
  root : Nat
  reverse : Bool
deriving DecidableEq, Repr

/-- A data object (a devito `Function`): an identifier plus its ordered
canonical dimensions (`findices`). -/
structure Fn where
  id : Nat
  indices : List Dim
deriving DecidableEq, Repr

/-- A symbolic affine index expression over `V` iteration symbols:
`coeffs 0 * x0 + ... + coeffs (V-1) * x(V-1) + const`. -/
structure SExpr (V : Nat) where
  coeffs : Fin V → Int
  const : Int
deriving DecidableEq

/-- Element-wise subtraction of affine expressions (SymPy `-`). -/
def SExpr.sub {V : Nat} (a b : SExpr V) : SExpr V :=
  ⟨fun i => a.coeffs i - b.coeffs i, a.const - b.const⟩

/-- Negation of an affine expression (SymPy unary `-`). -/
def SExpr.neg {V : Nat} (a : SExpr V) : SExpr V :=
  ⟨fun i => -a.coeffs i, -a.const⟩

/-- Python `int(e)`: succeeds with the constant exactly when the
expression has no symbolic part; otherwise (`TypeError`) `none`. -/
def SExpr.toInt {V : Nat} (e : SExpr V) : Option Int :=
  if (∀ i, e.coeffs i = 0) then some e.const else none

/-- An expression is a concrete integer when all symbolic coefficients
vanish. -/
def SExpr.concrete {V : Nat} (e : SExpr V) : Prop :=
  ∀ i, e.coeffs i = 0

instance {V : Nat} (e : SExpr V) : Decidable e.concrete :=
  inferInstanceAs (Decidable (∀ i, e.coeffs i = 0))

/-- The constant affine expression. -/
def SExpr.ofInt (V : Nat) (n : Int) : SExpr V :=
  ⟨fun _ => 0, n⟩

/-- Python's lexicographic comparison of two integer lists
(`list.__lt__`). -/
def pyLt : List Int → List Int → Bool
  | [], [] => false
  | [], _ :: _ => true
  | _ :: _, [] => false
  | x :: xs, y :: ys => decide (x < y) || (decide (x = y) && pyLt xs ys)

/-- `[int(i) for i in l]`: convert every entry to a concrete integer,
raising (`Except.error`) at the first symbolic entry. -/
def mapToInts {V : Nat} : List (SExpr V) → Except Unit (List Int)
  | [] => .ok []
  | e :: es =>
    match e.toInt with
    | none => .error ()
    | some n => (mapToInts es).map (n :: ·)

/-! ### `Vector` (basic.py lines 8-130)

A `Vector` is a tuple of affine expressions.  All binary operations go
through the `_asvector` decorator, which raises `TypeError` on rank
mismatch (scalar broadcasting is not exercised here: both operands are
always vectors).  `order`/`distance` are element-wise subtraction;
`__lt__` converts each component of `order` to `int` (raising on
symbolic components) and compares the result lexicographically with the
zero list; `__gt__` is `other.__lt__(self)`; `__ge__`/`__le__` are
`self.__eq__(other) or self.__gt__/__lt__(other)`. -/

/-- `Vector.distance` / `Vector.order` / `Vector.__sub__`: element-wise
subtraction after the `_asvector` rank check. -/
def vSub {V : Nat} (u v : List (SExpr V)) : Except Unit (List (SExpr V)) :=
  if u.length = v.length then .ok (List.zipWith SExpr.sub u v) else .error ()

/-- `Vector.__add__` after the `_asvector` rank check. -/
def vAdd {V : Nat} (u v : List (SExpr V)) : Except Unit (List (SExpr V)) :=
  if u.length = v.length then
    .ok (List.zipWith (fun a b => ⟨fun i => a.coeffs i + b.coeffs i, a.const + b.const⟩) u v)
  else .error ()

/-- `Vector.distance(other)` is an alias of `self - other`. -/
def vDistance {V : Nat} (u v : List (SExpr V)) : Except Unit (List (SExpr V)) :=
  vSub u v

/-- `Vector.__eq__`: `_asvector` rank check, then structural tuple
equality of the components. -/
def vEq {V : Nat} (u v : List (SExpr V)) : Except Unit Bool :=
  if u.length = v.length then .ok (decide (u = v)) else .error ()

/-- `Vector.__ne__`: negation of `Vector.__eq__`. -/
def vNe {V : Nat} (u v : List (SExpr V)) : Except Unit Bool :=
  (vEq u v).map (!·)

/-- `Vector.__lt__`: `diff = [int(i) for i in self.order(other)]`
(raising `TypeError` on any symbolic component), then Python list
comparison `diff < [0]*rank`. -/
def vLt {V : Nat} (u v : List (SExpr V)) : Except Unit Bool :=
  if u.length = v.length then do
    let ints ← mapToInts (List.zipWith SExpr.sub u v)
    pure (pyLt ints (List.replicate u.length 0))
  else .error ()

/-- `Vector.__gt__`: `other.__lt__(self)` after the rank check. -/
def vGt {V : Nat} (u v : List (SExpr V)) : Except Unit Bool :=
  if u.length = v.length then vLt v u else .error ()

/-- `Vector.__ge__`: `self.__eq__(other) or self.__gt__(other)`. -/
def vGe {V : Nat} (u v : List (SExpr V)) : Except Unit Bool :=
  if u.length = v.length then do
    let e ← vEq u v
    if e then pure true else vGt u v
  else .error ()

/-- `Vector.__le__`: `self.__eq__(other) or self.__lt__(other)`. -/
def vLe {V : Nat} (u v : List (SExpr V)) : Except Unit Bool :=
  if u.length = v.length then do
    let e ← vEq u v
    if e then pure true else vLt u v
  else .error ()

/-! ### `IterationInstance` (basic.py lines 133-180)

An `IterationInstance` adds the `findices` (the data object's canonical
dimensions) to the offset vector.  Every comparison operator first
raises `TypeError` when the two `findices` tuples differ, then falls
back to the corresponding `Vector` operation. -/

/-- The iteration-space point accessed by an `Indexed` object. -/
structure IterInst (V : Nat) where
  findices : List Dim
  entries : List (SExpr V)
deriving DecidableEq

/-- `IterationInstance.__eq__`: `findices` mismatch raises, then
`Vector.__eq__`. -/
def iiEq {V : Nat} (a b : IterInst V) : Except Unit Bool :=
  if a.findices = b.findices then vEq a.entries b.entries else .error ()

/-- `IterationInstance.__ne__`: `not self.__eq__(other)`. -/
def iiNe {V : Nat} (a b : IterInst V) : Except Unit Bool :=
  (iiEq a b).map (!·)

/-- `IterationInstance.__lt__`: `findices` mismatch raises, then
`Vector.__lt__`. -/
def iiLt {V : Nat} (a b : IterInst V) : Except Unit Bool :=
  if a.findices = b.findices then vLt a.entries b.entries else .error ()

/-- `IterationInstance.__gt__`: `other.__lt__(self)`. -/
def iiGt {V : Nat} (a b : IterInst V) : Except Unit Bool :=
  iiLt b a

/-- `IterationInstance.__ge__`: `self.__eq__(other) or self.__gt__(other)`. -/
def iiGe {V : Nat} (a b : IterInst V) : Except Unit Bool := do
  let e ← iiEq a b
  if e then pure true else iiGt a b

/-- `IterationInstance.__le__`: `self.__eq__(other) or self.__lt__(other)`. -/
def iiLe {V : Nat} (a b : IterInst V) : Except Unit Bool := do
  let e ← iiEq a b
  if e then pure true else iiLt a b

/-- `IterationInstance.distance(sink)` with `dim=None`: `findices`
mismatch raises, then `Vector.distance` (raising on rank mismatch),
truncated to `self.rank` components. -/
def iiDistance {V : Nat} (a b : IterInst V) : Except Unit (List (SExpr V)) :=
  if a.findices = b.findices then
    (vSub a.entries b.entries).map (·.take a.entries.length)
  else .error ()

/-! ### `TimedAccess` (basic.py lines 183-303)

An `Access` adds the accessed data object and a read/write mode; a
`TimedAccess` adds a timestamp and a per-dimension direction derived
from `findices` (`DEC` when the dimension is reversed, `INC` otherwise).
`TimedAccess.__lt__` first raises on direction mismatch, then runs
`IterationInstance.__lt__`; by dynamic dispatch, the `self.order(other)`
call inside `Vector.__lt__` resolves to the direction-aware
`TimedAccess.order`.  `TimedAccess.__eq__` additionally requires equal
data objects (from `Access.__eq__`) and equal directions. -/

/-- Access mode: read or write. -/
inductive Mode where
  | read : Mode
  | write : Mode
deriving DecidableEq, Repr

/-- A `TimedAccess`: the accessed object, its offset vector, the access
mode, and the program-order timestamp. -/
structure TimedAccess (V : Nat) where
  fn : Fn
  entries : List (SExpr V)
  mode : Mode
  timestamp : Nat
deriving DecidableEq

/-- `findices` of a `TimedAccess` are the accessed object's canonical
dimensions (`indexed.base.function.indices`). -/
def TimedAccess.findices {V : Nat} (a : TimedAccess V) : List Dim :=
  a.fn.indices

/-- Per-dimension traversal direction (`DEC if i.reverse else INC`),
encoded as `true` for `DEC`. -/
def TimedAccess.direction {V : Nat} (a : TimedAccess V) : List Bool :=
  a.findices.map (·.reverse)

/-- `TimedAccess.order`: raises on direction or rank mismatch, then
computes the direction-aware element-wise difference
(`i - j if d == INC else j - i`). -/
def taOrder {V : Nat} (a b : TimedAccess V) : Except Unit (List (SExpr V)) :=
  if a.direction = b.direction ∧ a.entries.length = b.entries.length then
    .ok ((List.zip (List.zip a.entries b.entries) a.direction).map
      (fun p => if p.2 then SExpr.sub p.1.2 p.1.1 else SExpr.sub p.1.1 p.1.2))
  else .error ()

/-- `TimedAccess.__lt__`: direction mismatch raises; `findices` mismatch
raises (in `IterationInstance.__lt__`); rank mismatch raises (in
`_asvector`); then `[int(i) for i in self.order(other)]` (raising on a
symbolic component) compared lexicographically with the zero list. -/
def taLt {V : Nat} (a b : TimedAccess V) : Except Unit Bool :=
  if a.direction = b.direction then
    if a.findices = b.findices then
      if a.entries.length = b.entries.length then do
        let diff ← taOrder a b
        let ints ← mapToInts diff
        pure (pyLt ints (List.replicate a.entries.length 0))
      else .error ()
    else .error ()
  else .error ()

/-- `TimedAccess.__eq__`: `findices` mismatch raises; rank mismatch
raises; otherwise structural equality of the offset vectors, of the
accessed objects, and of the directions. -/
def taEq {V : Nat} (a b : TimedAccess V) : Except Unit Bool :=
  if a.findices = b.findices then
    if a.entries.length = b.entries.length then
      .ok (decide (a.entries = b.entries) && decide (a.fn = b.fn)
           && decide (a.direction = b.direction))
    else .error ()
  else .error ()

/-! ### `Scope` (basic.py lines 410-523)

A `Scope` is built from equations in program order: for equation number
`i`, every `Indexed` retrieved from the right-hand side becomes a read
`TimedAccess` with timestamp `i` appended to `self.reads[function]`, and
an `Indexed` left-hand side becomes a write `TimedAccess` with timestamp
`i` appended to `self.writes[function]`.  Python dictionaries preserve
key insertion order, so the keys of `self.writes` are the written
objects in order of first write. -/

/-- An `Indexed` object: a data object applied to index expressions. -/
structure Indexed (V : Nat) where
  fn : Fn
  indices : List (SExpr V)
deriving DecidableEq

/-- An equation in the IR: an optional `Indexed` left-hand side (`none`
for a scalar, untracked left-hand side) and the ordered list of
`Indexed` reads retrieved from the right-hand side. -/
structure EqIR (V : Nat) where
  lhs : Option (Indexed V)
  rhs : List (Indexed V)

/-- `TimedAccess(indexed, mode, timestamp)`. -/
def mkTA {V : Nat} (ix : Indexed V) (m : Mode) (ts : Nat) : TimedAccess V :=
  ⟨ix.fn, ix.indices, m, ts⟩

/-- `enumerate`: pair every list element with its position, starting
from `n`. -/
def enumFrom {α : Type} : Nat → List α → List (Nat × α)
  | _, [] => []
  | n, a :: as => (n, a) :: enumFrom (n + 1) as

/-- `self.reads[f]`: all read accesses of `f`, in program order. -/
def sReads {V : Nat} (exprs : List (EqIR V)) (f : Fn) : List (TimedAccess V) :=
  (enumFrom 0 exprs).flatMap
    (fun p => (p.2.rhs.filter (fun ix => ix.fn == f)).map (fun ix => mkTA ix .read p.1))

/-- `self.writes[f]`: all write accesses of `f`, in program order. -/
def sWrites {V : Nat} (exprs : List (EqIR V)) (f : Fn) : List (TimedAccess V) :=
  (enumFrom 0 exprs).flatMap
    (fun p => match p.2.lhs with
      | some ix => if ix.fn == f then [mkTA ix .write p.1] else []
      | none => [])

/-- Deduplication keeping the first occurrence of every element, as a
Python dict does with its keys. -/
def firstDedup {α : Type} [DecidableEq α] : List α → List α
  | [] => []
  | a :: as => a :: firstDedup (as.filter (fun x => x ≠ a))
termination_by l => l.length
decreasing_by
  simp only [List.length_cons]
  exact Nat.lt_succ_of_le (List.length_filter_le _ _)

/-- The keys of `self.writes`: written objects in order of first
write. -/
def writeFns {V : Nat} (exprs : List (EqIR V)) : List Fn :=
  firstDedup ((exprs.filterMap (·.lhs)).map (·.fn))

/-- The flow condition computed inside `Scope.d_flow`:
`is_flow = (r < w) or (r == w and r.lex_ge(w))`, with any `TypeError`
resolved conservatively to `True`. -/
def isFlow {V : Nat} (w r : TimedAccess V) : Bool :=
  match taLt r w with
  | .error _ => true
  | .ok true => true
  | .ok false =>
    match taEq r w with
    | .error _ => true
    | .ok e => e && decide (w.timestamp ≤ r.timestamp)

/-- `Scope.d_flow` as the list of (source, sink) pairs of the appended
`Dependence(w, r)` objects: for every written object, every write `w`
and every read `r` of it with `is_flow` true, in iteration order. -/
def dFlowPairs {V : Nat} (exprs : List (EqIR V)) :
    List (TimedAccess V × TimedAccess V) :=
  (writeFns exprs).flatMap fun f =>
    (sWrites exprs f).flatMap fun w =>
      ((sReads exprs f).filter (fun r => isFlow w r)).map (fun r => (w, r))

/-! ### `Dependence` (basic.py lines 306-367) -/

/-- A data dependence between two `TimedAccess`es: the pair plus the
derived `findices` and distance vector. -/
structure Dep (V : Nat) where
  source : TimedAccess V
  sink : TimedAccess V
  findices : List Dim
  distance : List (SExpr V)

/-- `Dependence.__init__`: asserts that both accesses are to the same
data object, then stores `source.findices` and
`source.distance(sink)` (the `IterationInstance` distance, element-wise
`source - sink`). -/
def mkDep {V : Nat} (source sink : TimedAccess V) : Except Unit (Dep V) :=
  if source.fn = sink.fn then
    (iiDistance ⟨source.findices, source.entries⟩ ⟨sink.findices, sink.entries⟩).map
      (fun d => ⟨source, sink, source.findices, d⟩)
  else .error ()

/-- `Dependence.cause` loop: walk `zip(self.findices, self.distance)`;
a concrete positive component returns its dimension, a symbolic
component (whose `> 0` raises `TypeError`) conservatively returns its
dimension, otherwise continue; fall through to `None`. -/
def causeAux {V : Nat} : List Dim → List (SExpr V) → Option Dim
  | i :: is', j :: js =>
    match j.toInt with
    | some c => if 0 < c then some i else causeAux is' js
    | none => some i
  | _, _ => none

/-- `Dependence.cause`. -/
def Dep.cause {V : Nat} (d : Dep V) : Option Dim :=
  causeAux d.findices d.distance

/-! ### Halo scheme derivation (halo_scheme.py)

`hs_classify` collects, per read access and per canonical dimension, a
`HaloLabel`; the labels of every `(function, dimension)` pair are then
required to reduce to one unique label (otherwise a
`HaloSchemeException` is raised).  `hs_comp_halos` turns the `STENCIL`
and `FULL` classifications into concrete per-side exchange amounts. -/

/-- The halo classification labels `NONE`, `UNSUPPORTED`, `STENCIL`,
`FULL` of halo_scheme.py. -/
inductive HaloLabel where
  | nohalo : HaloLabel
  | unsupported : HaloLabel
  | stencil : HaloLabel
  | full : HaloLabel
deriving DecidableEq, Repr

/-- A data side, `LEFT` or `RIGHT`. -/
inductive Side where
  | left : Side
  | right : Side
deriving DecidableEq, Repr

/-- A `Halo` record `(dim, side, amount)`. -/
structure Halo where
  dim : Dim
  side : Side
  amount : Int
deriving DecidableEq, Repr

/-- The per-object geometry used by `hs_comp_halos`: per dimension, the
allocated halo extent `(left, right)` (`f._extent_halo[d]`) and the
domain offsets `(left, right)` (`f._offset_domain[d]`). -/
structure HFun where
  extentHalo : Dim → Int × Int
  offsetDomain : Dim → Int × Int

/-- A `DataSpace` restricted to one object: per root-dimension
identifier, the `(lower, upper)` limits (`dspace[f][d.root].limits`). -/
def DSpace : Type := Nat → Int × Int

/-- The left amount of `hs_comp_halos`: the allocated left halo extent
when `dspace is None`, else `f._offset_domain[d].left - lower`. -/
def lsizeOf (f : HFun) (dspace : Option DSpace) (d : Dim) : Int :=
  match dspace with
  | none => (f.extentHalo d).1
  | some ds => (f.offsetDomain d).1 - (ds d.root).1

/-- The right amount of `hs_comp_halos`: the allocated right halo
extent when `dspace is None`, else `upper - f._offset_domain[d].right`. -/
def rsizeOf (f : HFun) (dspace : Option DSpace) (d : Dim) : Int :=
  match dspace with
  | none => (f.extentHalo d).2
  | some ds => (ds d.root).2 - (f.offsetDomain d).2

/-- `hs_comp_halos(f, dims, dspace)`: for each dimension, the left and
right amounts, from the allocated halo extents when `dspace is None`
and from domain offsets against the data-space limits otherwise; a side
is emitted only when its amount is strictly positive. -/
def hsCompHalos (f : HFun) (dims : List Dim) (dspace : Option DSpace) : List Halo :=
  dims.flatMap fun d =>
    (if 0 < lsizeOf f dspace d then [⟨d, .left, lsizeOf f dspace d⟩] else []) ++
    (if 0 < rsizeOf f dspace d then [⟨d, .right, rsizeOf f dspace d⟩] else [])

/-- The two `hs_comp_halos` calls in `HaloScheme.__init__`: `STENCIL`
dimensions with the data space, then `FULL` dimensions without. -/
def hsHalosFor (f : HFun) (v : List (Dim × HaloLabel)) (ds : DSpace) : List Halo :=
  hsCompHalos f ((v.filter (fun p => p.2 == HaloLabel.stencil)).map (·.1)) (some ds) ++
  hsCompHalos f ((v.filter (fun p => p.2 == HaloLabel.full)).map (·.1)) none

/-- A read access as seen by `hs_classify`: its canonical dimensions and
the per-dimension affinity/irregularity predicates plus the increment
flag. -/
structure ReadAcc where
  findices : List Dim
  affine : Dim → Bool
  isIncrement : Bool
  irregular : Dim → Bool

/-- The label the `hs_classify` collection loop appends for read `r` at
dimension `d` (`g d` = "is `d` distributed"): affine and distributed →
`STENCIL`; affine and not distributed → `NONE`; increment →
`UNSUPPORTED`; irregular and distributed → `FULL`; otherwise nothing. -/
def rdLabel (g : Dim → Bool) (r : ReadAcc) (d : Dim) : Option HaloLabel :=
  if r.affine d then some (if g d then .stencil else .nohalo)
  else if r.isIncrement then some .unsupported
  else if r.irregular d && g d then some .full
  else none

/-- `v.setdefault(d, []).append(l)` on an insertion-ordered mapping. -/
def updAdd : List (Dim × List HaloLabel) → Dim → HaloLabel → List (Dim × List HaloLabel)
  | [], d, l => [(d, [l])]
  | (d', ls) :: rest, d, l =>
    if d' = d then (d', ls ++ [l]) :: rest else (d', ls) :: updAdd rest d l

/-- The inner collection loop of `hs_classify` for one read access. -/
def collectRead (g : Dim → Bool) (v : List (Dim × List HaloLabel)) (r : ReadAcc) :
    List (Dim × List HaloLabel) :=
  r.findices.foldl
    (fun v d => match rdLabel g r d with
      | some l => updAdd v d l
      | none => v) v

/-- The `hs_classify` collection loop over all read accesses of one
object. -/
def collectReads (g : Dim → Bool) (rs : List ReadAcc) : List (Dim × List HaloLabel) :=
  rs.foldl (collectRead g) []

/-- The `hs_classify` reduction of one label list: raise
`HaloSchemeException` unless `set(hl)` has exactly one element, in
which case return it. -/
def uniqueLabel : List HaloLabel → Except Unit HaloLabel
  | [] => .error ()
  | l :: ls => if ls.all (· == l) then .ok l else .error ()

/-- The `hs_classify` sanity-check/reduction loop over one object's
collected mapping. -/
def reduceLabels : List (Dim × List HaloLabel) → Except Unit (List (Dim × HaloLabel))
  | [] => .ok []
  | (d, hl) :: rest => do
    let l ← uniqueLabel hl
    let r ← reduceLabels rest
    .ok ((d, l) :: r)

/-- A tensor function as seen by `hs_classify`: identifier, the
`is_TensorFunction` and `grid is not None` flags, and the grid's
`is_distributed` predicate. -/
structure HFn where
  id : Nat
  isTensor : Bool
  hasGrid : Bool
  distributed : Dim → Bool

/-- The collection phase of `hs_classify` over `scope.reads`:
objects failing `is_TensorFunction`/`grid` are skipped, the rest are
mapped to their collected per-dimension label lists. -/
def collectAll (scope : List (HFn × List ReadAcc)) :
    List (HFn × List (Dim × List HaloLabel)) :=
  scope.filterMap fun p =>
    if p.1.isTensor && p.1.hasGrid then
      some (p.1, collectReads p.1.distributed p.2)
    else none

/-- The reduction phase of `hs_classify` over all objects. -/
def reduceAll : List (HFn × List (Dim × List HaloLabel)) →
    Except Unit (List (HFn × List (Dim × HaloLabel)))
  | [] => .ok []
  | (f, v) :: rest => do
    let v' ← reduceLabels v
    let r ← reduceAll rest
    .ok ((f, v') :: r)

/-- `hs_classify(scope)`: collect labels per object and dimension,
then reduce each label list to its unique label, raising
`HaloSchemeException` on any conflict. -/
def hsClassify (scope : List (HFn × List ReadAcc)) :
    Except Unit (List (HFn × List (Dim × HaloLabel))) :=
  reduceAll (collectAll scope)

/-! ### `PartialCluster.squash` (cluster.py lines 13-80)

`squash` asserts `self.ispace == other.ispace`, then extends
`self.exprs` with `[i for i in other.exprs if i not in self.exprs]`
(the comprehension is materialised against the pre-extension
`self.exprs`).  Equations and iteration spaces are compared by
structural equality, embedded here as parameter types with decidable
equality. -/

/-- A mutable `PartialCluster`, restricted to the fields `squash`
touches: the ordered equation list and the iteration space. -/
structure PartialCluster (E I : Type) where
  exprs : List E
  ispace : I
deriving DecidableEq

/-- `PartialCluster.squash(other)`: `none` models the `AssertionError`
raised when the iteration spaces differ; otherwise the concatenation
dropping the equations of `other` already present in `self`. -/
def PartialCluster.squash {E I : Type} [DecidableEq E] [DecidableEq I]
    (s o : PartialCluster E I) : Option (PartialCluster E I) :=
  if s.ispace = o.ispace then
    some ⟨s.exprs ++ o.exprs.filter (fun i => !(s.exprs.contains i)), s.ispace⟩
  else none

/-! ### `autotune` (autotuning.py)

The control flow relevant to its failure behavior: with more than one
sequential dimension the original arguments are returned at once; each
candidate block size is dropped when some block size exceeds its
dimension's extent, when the substituted stack footprint exceeds the
stack limit, or when that footprint does not reduce to a number; with
no timed candidate, `min` raises `ValueError`, which is caught and the
original arguments are returned; otherwise the winning block sizes are
substituted into the original arguments.  The iteration extents, the
stack-footprint evaluation and the measured run times are externally
computed quantities, taken here as parameters. -/

/-- A candidate block-size assignment (an `OrderedDict` of the
blocked-dimension argument names). -/
def BS : Type := List (Nat × Int)

/-- The external quantities `autotune` consults. -/
structure ATEnv where
  extent : Nat → Int
  stackEval : BS → Option Int
  stackLimit : Int
  time : BS → Int
  mapperKeys : List Nat

/-- A candidate survives the two checks of the trial loop: every block
size bound in the arguments is at most its dimension's extent, and the
substituted stack footprint reduces to a number not above the stack
limit. -/
def legalBS (env : ATEnv) (argKeys : List Nat) (bs : BS) : Bool :=
  bs.all (fun kv => !(argKeys.contains kv.1) || decide (kv.2 ≤ env.extent kv.1)) &&
  match env.stackEval bs with
  | some s => decide (s ≤ env.stackLimit)
  | none => false

/-- `min(timings, key=timings.get)`: the first candidate of minimal
elapsed time, `none` on an empty collection (`ValueError`). -/
def minByTime (env : ATEnv) (l : List BS) : Option BS :=
  l.foldl
    (fun acc bs => match acc with
      | none => some bs
      | some b => if env.time bs < env.time b then some bs else some b)
    none

/-- `best[k]` for `k in mapper` (every mapper key is a key of the
winning candidate). -/
def bsLookup (bs : BS) (k : Nat) (dflt : Int) : Int :=
  ((bs.find? (fun p => p.1 == k)).map (·.2)).getD dflt

/-- `autotune(operator, arguments, tunable)` reduced to its
argument-flow: give up at once on more than one sequential dimension;
otherwise time the legal candidates, return the original arguments when
none is legal, and else substitute the winning block sizes into the
original arguments. -/
def autotune (env : ATEnv) (args : List (Nat × Int)) (seqCount : Nat)
    (bss : List BS) : List (Nat × Int) :=
  if 2 ≤ seqCount then args
  else
    match minByTime env (bss.filter (legalBS env (args.map (·.1)))) with
    | none => args
    | some best =>
      args.map (fun kv =>
        (kv.1, if env.mapperKeys.contains kv.1 then bsLookup best kv.1 kv.2 else kv.2))

/-! ### `autotune` output-buffer safety (autotuning.py lines 22-28, 111, 124-127)

A heap model for the buffer-copying behavior: argument values are
either numbers or buffer addresses into a store.  `autotune` first
rebinds every output-named buffer to a freshly allocated copy
(`at_arguments[k] = v.copy()`); the trial executions
(`operator.cfunction(*list(at_arguments.values()))`) write only through
the output buffers they are passed, i.e. the addresses bound to output
names in the trial arguments; the returned mapping is rebuilt from the
*original* `arguments`, replacing only the tunable block-size
entries. -/

/-- An argument value: a number or the address of a buffer. -/
inductive Val where
  | num : Int → Val
  | buf : Nat → Val
deriving DecidableEq, Repr

/-- The buffer store. -/
def Store : Type := Nat → List Int

/-- Point update of a store. -/
def Store.upd (st : Store) (a : Nat) (b : List Int) : Store :=
  fun x => if x = a then b else st x

/-- `for k, v in arguments.items(): if k in output: at_arguments[k] =
v.copy()`: rebind every output-named buffer to a fresh address `c, c+1,
...` holding a copy of its contents. -/
def copyOutputs (outputs : List Nat) :
    List (Nat × Val) → Store → Nat → List (Nat × Val) × Store
  | [], st, _ => ([], st)
  | (k, v) :: rest, st, c =>
    if k ∈ outputs then
      match v with
      | .buf a =>
        ((k, Val.buf c) :: (copyOutputs outputs rest (st.upd c (st a)) (c + 1)).1,
         (copyOutputs outputs rest (st.upd c (st a)) (c + 1)).2)
      | .num n =>
        ((k, Val.num n) :: (copyOutputs outputs rest st c).1,
         (copyOutputs outputs rest st c).2)
    else
      ((k, v) :: (copyOutputs outputs rest st c).1,
       (copyOutputs outputs rest st c).2)

/-- The buffer addresses bound to output names in an argument
mapping. -/
def outAddrs (outputs : List Nat) (args : List (Nat × Val)) : List Nat :=
  (args.filter (fun p => p.1 ∈ outputs)).filterMap
    (fun p => match p.2 with
      | .buf a => some a
      | .num _ => none)

/-- The combined effect of the trial executions on the store: the
operator writes only through the output buffers it is passed, so the
store changes only at the addresses bound to output names in the trial
arguments (`effect` gives the written contents). -/
def runTrials (effect : Nat → List Int) (s : List Nat) (st : Store) : Store :=
  fun a => if a ∈ s then effect a else st a

/-- An address strictly above every buffer address of the original
arguments, used for the fresh copies. -/
def maxAddr (args : List (Nat × Val)) : Nat :=
  (args.filterMap
    (fun kv => match kv.2 with
      | .buf a => some a
      | .num _ => none)).foldl max 0

/-- The buffer-flow of `autotune`: copy the output buffers, run the
trials against the copies, and rebuild the result from the original
arguments (`tuned[k] = best[k] if k in mapper else v`), or return the
original arguments when tuning failed. -/
def autotuneMem (outputs : List Nat) (mapperKeys : List Nat)
    (winner : Option (Nat → Int)) (args : List (Nat × Val)) (st : Store)
    (effect : Nat → List Int) : List (Nat × Val) × Store :=
  let res := copyOutputs outputs args st (maxAddr args + 1)
  let st2 := runTrials effect (outAddrs outputs res.1) res.2
  match winner with
  | none => (args, st2)
  | some best =>
    (args.map (fun kv =>
      (kv.1, if kv.1 ∈ mapperKeys then Val.num (best kv.1) else kv.2)), st2)

/-! ### Predicates used to state the claims -/

/-- The flow condition as the specification words it: `r` precedes `w`
in iteration space, or the two are iteration-space-equal with `r`'s
timestamp at least `w`'s, or the comparison of `r` and `w` raises
(symbolic incomparability, conservatively a dependence). -/
def flowCond {V : Nat} (w r : TimedAccess V) : Prop :=
  taLt r w = .ok true ∨
  (taEq r w = .ok true ∧ w.timestamp ≤ r.timestamp) ∨
  taLt r w = .error () ∨ taEq r w = .error ()

/-- A distance component carries a dependence when it is provably
positive, or when its sign is symbolically indeterminate (treated
conservatively as positive). -/
def isCausing {V : Nat} (j : SExpr V) : Bool :=
  match j.toInt with
  | some c => decide (0 < c)
  | none => true

/-- A label list reduces to exactly one unique label. -/
def uniqueOne (hl : List HaloLabel) : Prop :=
  ∃ l, hl ≠ [] ∧ ∀ x ∈ hl, x = l

/-- One collected `(dimension, labels)` entry reduced to a
`(dimension, label)` assignment: same dimension, and every collected
label equals the assigned one (of which there is at least one). -/
def labelsReduced (q : Dim × List HaloLabel) (q' : Dim × HaloLabel) : Prop :=
  q.1 = q'.1 ∧ q.2 ≠ [] ∧ ∀ x ∈ q.2, x = q'.2

/-- Modelled from the spec: the distance vector the specification
ascribes to a `Dependence`, "sink − source, direction-aware", i.e.
with each component negated (hence `source − sink`) for dimensions
traversed in decreasing direction. -/
def specDistance {V : Nat} (source sink : TimedAccess V) : List (SExpr V) :=
  (List.zip (List.zip source.entries sink.entries) source.direction).map
    (fun p => if p.2 then SExpr.sub p.1.1 p.1.2 else SExpr.sub p.1.2 p.1.1)

/-! ### Concrete instances used by the witnesses and counterexamples -/

/-- A forward (increasing) dimension `t`. -/
def dimT : Dim := ⟨0, 0, false⟩

/-- A data object `u(t)`. -/
def fnU : Fn := ⟨0, [dimT]⟩

/-- The affine expression `t + 1` over one iteration symbol. -/
def exprT1 : SExpr 1 := ⟨fun _ => 1, 1⟩

/-- The affine expression `t` over one iteration symbol. -/
def exprT0 : SExpr 1 := ⟨fun _ => 1, 0⟩

/-- The write access `u[t+1]` at timestamp 0. -/
def taW : TimedAccess 1 := ⟨fnU, [exprT1], .write, 0⟩

/-- The read access `u[t]` at timestamp 0. -/
def taR : TimedAccess 1 := ⟨fnU, [exprT0], .read, 0⟩

/-- The dependence of `u[t+1] = f(u[t])` built by `Dependence(w, r)`:
its stored distance is `source - sink = ((t+1) - t,) = (1,)`. -/
def depWR : Dep 1 := ⟨taW, taR, [dimT], [SExpr.sub exprT1 exprT0]⟩

/-- The concrete one-entry offset vector `(3,)`. -/
def cvec3 : List (SExpr 1) := [SExpr.ofInt 1 3]

/-- The concrete one-entry offset vector `(5,)`. -/
def cvec5 : List (SExpr 1) := [SExpr.ofInt 1 5]

/-- A trivial autotuning environment. -/
def atEnv0 : ATEnv := ⟨fun _ => 0, fun _ => none, 0, fun _ => 0, []⟩

/-- A read access that is affine in its one (distributed) dimension. -/
def readAcc0 : ReadAcc := ⟨[dimT], fun _ => true, false, fun _ => false⟩

/-- A distributed tensor function for the classification example. -/
def hfn0 : HFn := ⟨0, true, true, fun _ => true⟩

/-- A one-object scope for the classification example. -/
def hscope0 : List (HFn × List ReadAcc) := [(hfn0, [readAcc0])]

/-- The classification `hs_classify` produces on `hscope0`. -/
def hsm0 : List (HFn × List (Dim × HaloLabel)) := [(hfn0, [(dimT, .stencil)])]

/-! ## Theorems -/

theorem except_bind_error {α β : Type} (f : α → Except Unit β) :
    (Except.error () >>= f) = Except.error () := rfl

theorem except_bind_ok {α β : Type} (a : α) (f : α → Except Unit β) :
    (Except.ok () >>= fun _ => f a) = f a := rfl

theorem causeAux_eq_find {V : Nat} (fi : List Dim) (dist : List (SExpr V)) :
    causeAux fi dist =
      ((fi.zip dist).find? (fun p => isCausing p.2)).map Prod.fst := by
  induction fi generalizing dist with
  | nil => simp [causeAux]
  | cons i is' ih =>
    cases dist with
    | nil => simp [causeAux]
    | cons j js =>
      simp only [causeAux, List.zip_cons_cons, List.find?_cons]
      cases hj : j.toInt with
      | none =>
        have hc : isCausing j = true := by simp [isCausing, hj]
        simp [hc]
      | some c =>
        by_cases hc : 0 < c
        · have hc' : isCausing j = true := by simp [isCausing, hj, hc]
          simp [hc, hc']
        · have hc' : isCausing j = false := by simp [isCausing, hj, hc]
          simp [hc, hc', ih]

theorem not_isCausing_iff {V : Nat} (j : SExpr V) :
    ¬ isCausing j = true ↔ ∃ c, j.toInt = some c ∧ c ≤ 0 := by
  unfold isCausing
  cases hj : j.toInt with
  | none => simp
  | some c => simp [not_lt]

/-- C4: `Dependence.cause` is the first canonical dimension, in
declared order, whose distance component is provably positive or of
symbolically indeterminate sign; it is `None` exactly when every paired
distance component is provably non-positive. -/
theorem c4_cause_first_causing {V : Nat} (d : Dep V) :
    d.cause = ((d.findices.zip d.distance).find? (fun p => isCausing p.2)).map Prod.fst ∧
    (d.cause = none ↔
      ∀ p ∈ d.findices.zip d.distance, ∃ c, (p.2 : SExpr V).toInt = some c ∧ c ≤ 0) := by
  refine ⟨causeAux_eq_find d.findices d.distance, ?_⟩
  rw [Dep.cause, causeAux_eq_find]
  simp only [Option.map_eq_none', List.find?_eq_none]
  constructor
  · intro h p hp
    exact (not_isCausing_iff p.2).mp (h p hp)
  · intro h p hp
    exact (not_isCausing_iff p.2).mpr (h p hp)

/-- C10: comparing two accesses with mismatching canonical-dimension
lists raises in every comparison operation, and operating on two
vectors of different rank raises in every arithmetic and comparison
operation; none of these cases is resolved conservatively. -/
theorem c10_mismatch_fatal {V : Nat} (a b : IterInst V) (u v : List (SExpr V))
    (hf : a.findices ≠ b.findices) (hr : u.length ≠ v.length) :
    iiEq a b = .error () ∧ iiNe a b = .error () ∧ iiLt a b = .error () ∧
    iiGt a b = .error () ∧ iiGe a b = .error () ∧ iiLe a b = .error () ∧
    vAdd u v = .error () ∧ vSub u v = .error () ∧ vEq u v = .error () ∧
    vNe u v = .error () ∧ vLt u v = .error () ∧ vGt u v = .error () ∧
    vGe u v = .error () ∧ vLe u v = .error () := by
  have hf' : ¬ b.findices = a.findices := fun h => hf h.symm
  have hgt : iiGt a b = .error () := by simp [iiGt, iiLt, hf']
  have heq : iiEq a b = .error () := by simp [iiEq, hf]
  have hlt : iiLt a b = .error () := by simp [iiLt, hf]
  refine ⟨heq, ?_, hlt, hgt, ?_, ?_, ?_, ?_, ?_, ?_, ?_, ?_, ?_, ?_⟩
  · simp [iiNe, heq, Except.map]
  · simp only [iiGe, heq]
    rfl
  · simp only [iiLe, heq]
    rfl
  · simp [vAdd, hr]
  · simp [vSub, hr]
  · simp [vEq, hr]
  · simp [vNe, vEq, hr, Except.map]
  · simp [vLt, hr]
  · simp [vGt, hr]
  · simp [vGe, hr]
  · simp [vLe, hr]

/-- Witness for C10 at a concrete mismatching pair. -/
theorem c10_mismatch_fatal_witness :
    (IterInst.findices (V := 1) ⟨[dimT], [exprT0]⟩ ≠ IterInst.findices (V := 1) ⟨[], [exprT0]⟩) ∧
    ([exprT0] : List (SExpr 1)).length ≠ ([] : List (SExpr 1)).length ∧
    (iiEq (V := 1) ⟨[dimT], [exprT0]⟩ ⟨[], [exprT0]⟩ = .error () ∧
     iiNe (V := 1) ⟨[dimT], [exprT0]⟩ ⟨[], [exprT0]⟩ = .error () ∧
     iiLt (V := 1) ⟨[dimT], [exprT0]⟩ ⟨[], [exprT0]⟩ = .error () ∧
     iiGt (V := 1) ⟨[dimT], [exprT0]⟩ ⟨[], [exprT0]⟩ = .error () ∧
     iiGe (V := 1) ⟨[dimT], [exprT0]⟩ ⟨[], [exprT0]⟩ = .error () ∧
     iiLe (V := 1) ⟨[dimT], [exprT0]⟩ ⟨[], [exprT0]⟩ = .error () ∧
     vAdd ([exprT0] : List (SExpr 1)) [] = .error () ∧
     vSub ([exprT0] : List (SExpr 1)) [] = .error () ∧
     vEq ([exprT0] : List (SExpr 1)) [] = .error () ∧
     vNe ([exprT0] : List (SExpr 1)) [] = .error () ∧
     vLt ([exprT0] : List (SExpr 1)) [] = .error () ∧
     vGt ([exprT0] : List (SExpr 1)) [] = .error () ∧
     vGe ([exprT0] : List (SExpr 1)) [] = .error () ∧
     vLe ([exprT0] : List (SExpr 1)) [] = .error ()) :=
  ⟨by simp [IterInst.findices], by simp,
   c10_mismatch_fatal ⟨[dimT], [exprT0]⟩ ⟨[], [exprT0]⟩ [exprT0] []
     (by simp [IterInst.findices]) (by simp)⟩

/-- C7 counterexample: with `self = ⟨[0], 0⟩` (duplicate-free) and
`other = ⟨[1, 1], 0⟩` sharing the iteration space, `squash` keeps both
copies of equation `1`, so a structural duplicate IS duplicated in the
result, contradicting the claim that duplicates are dropped and never
duplicated. -/
theorem c7_counterexample :
    PartialCluster.squash (⟨[0], 0⟩ : PartialCluster Nat Nat) ⟨[1, 1], 0⟩ =
      some ⟨[0, 1, 1], 0⟩ ∧
    ¬ ([0, 1, 1] : List Nat).Nodup ∧ ([0] : List Nat).Nodup := by
  refine ⟨by decide, by decide, by decide⟩

/-- C7 (amended): `squash` fails exactly when the iteration spaces
differ; on success it appends, in order, the equations of `other` that
are not already in `self` — equations of `other` structurally equal to
one of `self`'s are dropped and never duplicated, while equations of
`other` not occurring in `self` keep their multiplicity from `other`. -/
theorem c7_squash_spec {E I : Type} [DecidableEq E] [DecidableEq I]
    (s o : PartialCluster E I) :
    (PartialCluster.squash s o = none ↔ s.ispace ≠ o.ispace) ∧
    ∀ r, PartialCluster.squash s o = some r →
      r.ispace = s.ispace ∧
      r.exprs = s.exprs ++ o.exprs.filter (fun i => !(s.exprs.contains i)) ∧
      (∀ e ∈ s.exprs, r.exprs.count e = s.exprs.count e) ∧
      (∀ e, e ∉ s.exprs → r.exprs.count e = o.exprs.count e) := by
  by_cases h : s.ispace = o.ispace
  · unfold PartialCluster.squash
    rw [if_pos h]
    refine ⟨by simp [h], ?_⟩
    rintro r hr
    injection hr with hr
    subst hr
    refine ⟨rfl, rfl, ?_, ?_⟩
    · intro e he
      have hnotmem : e ∉ o.exprs.filter (fun i => !(s.exprs.contains i)) := by
        intro hmem
        have h2 := (List.mem_filter.mp hmem).2
        simp at h2
        exact h2 he
      rw [List.count_append, List.count_eq_zero.mpr hnotmem, Nat.add_zero]
    · intro e he
      have hcont : s.exprs.contains e = false := by simpa using he
      have hcount : s.exprs.count e = 0 := List.count_eq_zero.mpr he
      rw [List.count_append, hcount, Nat.zero_add,
        List.count_filter (by simpa using he)]
  · unfold PartialCluster.squash
    rw [if_neg h]
    exact ⟨by simp [h], by intro r hr; cases hr⟩

/-- Witness for C7's amended theorem at a concrete squash. -/
theorem c7_squash_spec_witness :
    PartialCluster.squash (⟨[0], 0⟩ : PartialCluster Nat Nat) ⟨[1], 0⟩ = some ⟨[0, 1], 0⟩ ∧
    ((⟨[0, 1], 0⟩ : PartialCluster Nat Nat).ispace =
        (⟨[0], 0⟩ : PartialCluster Nat Nat).ispace ∧
      (⟨[0, 1], 0⟩ : PartialCluster Nat Nat).exprs =
        [0] ++ [1].filter (fun i => !(([0] : List Nat).contains i)) ∧
      (∀ e ∈ ([0] : List Nat), ([0, 1] : List Nat).count e = ([0] : List Nat).count e) ∧
      (∀ e, e ∉ ([0] : List Nat) → ([0, 1] : List Nat).count e = ([1] : List Nat).count e)) :=
  ⟨by decide, (c7_squash_spec ⟨[0], 0⟩ ⟨[1], 0⟩).2 ⟨[0, 1], 0⟩ (by decide)⟩

/-- C8: `autotune` returns the original arguments unchanged — raising
no error — whenever the loop nest has more than one sequential
dimension, or whenever every candidate block size is rejected by the
extent or stack-space checks. -/
theorem c8_autotune_failure (env : ATEnv) (args : List (Nat × Int)) (seqCount : Nat)
    (bss : List BS)
    (h : 2 ≤ seqCount ∨ ∀ bs ∈ bss, legalBS env (args.map (·.1)) bs = false) :
    autotune env args seqCount bss = args := by
  unfold autotune
  rcases h with h | h
  · simp [h]
  · have hnil : bss.filter (legalBS env (args.map (·.1))) = [] :=
      List.filter_eq_nil_iff.mpr (fun bs hbs => by simp [h bs hbs])
    rw [hnil]
    by_cases h2 : 2 ≤ seqCount <;> simp [h2, minByTime]

/-- Witness for C8 with more than one sequential dimension. -/
theorem c8_autotune_failure_witness :
    (2 ≤ 3 ∨ ∀ bs ∈ ([] : List BS), legalBS atEnv0 ([(0, 5)].map (·.1)) bs = false) ∧
    autotune atEnv0 [(0, 5)] 3 [] = [(0, 5)] :=
  ⟨Or.inl (by decide), c8_autotune_failure atEnv0 [(0, 5)] 3 [] (Or.inl (by decide))⟩

theorem SExpr.sub_eq_neg_sub {V : Nat} (a b : SExpr V) :
    SExpr.sub a b = SExpr.neg (SExpr.sub b a) := by
  unfold SExpr.sub SExpr.neg
  congr 1
  · funext i
    ring
  · ring

theorem SExpr.concrete_eq_iff {V : Nat} {a b : SExpr V}
    (ha : a.concrete) (hb : b.concrete) : a = b ↔ a.const = b.const := by
  constructor
  · intro h
    rw [h]
  · intro h
    have hc : a.coeffs = b.coeffs := funext fun i => (ha i).trans (hb i).symm
    cases a
    cases b
    simp only [SExpr.mk.injEq]
    exact ⟨hc, h⟩

theorem mapToInts_concrete {V : Nat} :
    ∀ (u v : List (SExpr V)), (∀ e ∈ u, e.concrete) → (∀ e ∈ v, e.concrete) →
      mapToInts (List.zipWith SExpr.sub u v) =
        .ok (List.zipWith (fun a b => a.const - b.const) u v)
  | [], _, _, _ => rfl
  | _ :: _, [], _, _ => rfl
  | a :: u, b :: v, hu, hv => by
    have ha : a.concrete := hu a (by simp)
    have hb : b.concrete := hv b (by simp)
    have hsub : (SExpr.sub a b).toInt = some (a.const - b.const) := by
      unfold SExpr.toInt SExpr.sub
      rw [if_pos]
      intro i
      simp [ha i, hb i]
    simp only [List.zipWith_cons_cons, mapToInts, hsub,
      mapToInts_concrete u v (fun e he => hu e (by simp [he]))
        (fun e he => hv e (by simp [he]))]
    rfl

theorem zipWith_diff_comm {V : Nat} :
    ∀ (u v : List (SExpr V)),
      List.zipWith (fun a b => a.const - b.const) v u =
        (List.zipWith (fun a b => a.const - b.const) u v).map (fun x => -x)
  | [], [] => rfl
  | [], _ :: _ => rfl
  | _ :: _, [] => rfl
  | a :: u, b :: v => by
    simp only [List.zipWith_cons_cons, List.map_cons, zipWith_diff_comm u v]
    congr 1
    ring

theorem zipWith_sub_comm {V : Nat} :
    ∀ (u v : List (SExpr V)),
      List.zipWith SExpr.sub u v = (List.zipWith SExpr.sub v u).map SExpr.neg
  | [], [] => rfl
  | [], _ :: _ => rfl
  | _ :: _, [] => rfl
  | a :: u, b :: v => by
    simp only [List.zipWith_cons_cons, List.map_cons, zipWith_sub_comm u v]
    congr 1
    exact SExpr.sub_eq_neg_sub a b

theorem concrete_eq_iff_diff_zero {V : Nat} :
    ∀ (u v : List (SExpr V)), u.length = v.length →
      (∀ e ∈ u, e.concrete) → (∀ e ∈ v, e.concrete) →
      (u = v ↔
        List.zipWith (fun a b => a.const - b.const) u v =
          List.replicate u.length 0)
  | [], [], _, _, _ => by simp
  | [], _ :: _, h, _, _ => by cases h
  | _ :: _, [], h, _, _ => by cases h
  | a :: u, b :: v, h, hu, hv => by
    have ha : a.concrete := hu a (by simp)
    have hb : b.concrete := hv b (by simp)
    have ih := concrete_eq_iff_diff_zero u v (by simpa using h)
      (fun e he => hu e (by simp [he])) (fun e he => hv e (by simp [he]))
    simp only [List.zipWith_cons_cons, List.length_cons, List.replicate_succ,
      List.cons.injEq]
    rw [← ih, SExpr.concrete_eq_iff ha hb]
    constructor
    · rintro ⟨h1, h2⟩
      exact ⟨by omega, h2⟩
    · rintro ⟨h1, h2⟩
      exact ⟨by omega, h2⟩

theorem pyLt_replicate_zero : ∀ n : Nat,
    pyLt (List.replicate n 0) (List.replicate n 0) = false
  | 0 => rfl
  | n + 1 => by simp [List.replicate_succ, pyLt, pyLt_replicate_zero n]

theorem pyLt_zeros_trichotomy : ∀ d : List Int,
    pyLt d (List.replicate d.length 0) = true ∨
    d = List.replicate d.length 0 ∨
    pyLt (d.map (fun x => -x)) (List.replicate d.length 0) = true
  | [] => by simp [pyLt]
  | x :: d => by
    rcases lt_trichotomy x 0 with hx | hx | hx
    · left
      simp [List.replicate_succ, pyLt, hx]
    · subst hx
      rcases pyLt_zeros_trichotomy d with h | h | h
      · left
        simp [List.replicate_succ, pyLt, h]
      · right
        left
        simp only [List.length_cons, List.replicate_succ, List.cons.injEq]
        exact ⟨trivial, h⟩
      · right
        right
        simp [List.replicate_succ, pyLt, h]
    · right
      right
      have hneg : -x < 0 := by omega
      simp [List.replicate_succ, pyLt, hneg]

theorem pyLt_zeros_not_both : ∀ d : List Int,
    pyLt d (List.replicate d.length 0) = true →
    pyLt (d.map (fun x => -x)) (List.replicate d.length 0) = false
  | [] => by simp [pyLt]
  | x :: d => by
    intro h
    simp only [List.replicate_succ, List.length_cons, List.map_cons, pyLt,
      Bool.or_eq_true, Bool.and_eq_true, decide_eq_true_eq] at h ⊢
    rcases h with h | ⟨h1, h2⟩
    · simp [not_lt.mpr (le_of_lt h), (by omega : ¬ -x = (0 : Int))]
      omega
    · subst h1
      simp [pyLt_zeros_not_both d h2]

/-- C2 counterexample: for the dependence of `u[t+1] = f(u[t])` over a
forward dimension, the stored distance vector is `source − sink = (1,)`,
while the claim's "sink − source, direction-aware" value is `(-1,)`:
the two differ. -/
theorem c2_counterexample :
    mkDep taW taR = .ok depWR ∧ depWR.distance ≠ specDistance taW taR :=
  ⟨rfl, by decide⟩

/-- C2 (amended): the distance vector stored by `Dependence.__init__`
is `source − sink`, by plain element-wise subtraction of the offset
vectors, with no direction adjustment. -/
theorem c2_distance_source_minus_sink {V : Nat} (source sink : TimedAccess V)
    (d : Dep V) (h : mkDep source sink = .ok d) :
    d.source = source ∧ d.sink = sink ∧
    d.distance = List.zipWith SExpr.sub source.entries sink.entries := by
  unfold mkDep iiDistance vSub at h
  split at h
  · split at h
    · split at h
      · simp only [Except.map] at h
        injection h with h
        subst h
        refine ⟨rfl, rfl, ?_⟩
        show (List.zipWith SExpr.sub source.entries sink.entries).take
          source.entries.length = _
        rw [List.take_of_length_le]
        rw [List.length_zipWith]
        exact Nat.min_le_left _ _
      · simp only [Except.map] at h
        cases h
    · cases h
  · cases h

/-- Witness for C2's amended theorem on the dependence of
`u[t+1] = f(u[t])`. -/
theorem c2_distance_source_minus_sink_witness :
    mkDep taW taR = .ok depWR ∧
    (depWR.source = taW ∧ depWR.sink = taR ∧
     depWR.distance = List.zipWith SExpr.sub taW.entries taR.entries) :=
  ⟨rfl, c2_distance_source_minus_sink taW taR depWR rfl⟩

/-- C3: on equal-rank offset vectors whose entries are all concrete
integers, exactly one of `a < b`, `a == b`, `a > b` holds, and
`a.distance(b)` is the element-wise negation of `b.distance(a)`. -/
theorem c3_vector_trichotomy {V : Nat} (u v : List (SExpr V))
    (hr : u.length = v.length)
    (hu : ∀ e ∈ u, e.concrete) (hv : ∀ e ∈ v, e.concrete) :
    ((vLt u v = .ok true ∨ vEq u v = .ok true ∨ vGt u v = .ok true) ∧
     ¬(vLt u v = .ok true ∧ vEq u v = .ok true) ∧
     ¬(vLt u v = .ok true ∧ vGt u v = .ok true) ∧
     ¬(vEq u v = .ok true ∧ vGt u v = .ok true)) ∧
    vDistance u v = (vDistance v u).map (List.map SExpr.neg) := by
  have hdlen : (List.zipWith (fun (a b : SExpr V) => a.const - b.const) u v).length
      = u.length := by
    rw [List.length_zipWith, hr, Nat.min_self]
  have hlt : vLt u v =
      .ok (pyLt (List.zipWith (fun a b => a.const - b.const) u v)
        (List.replicate u.length 0)) := by
    unfold vLt
    rw [if_pos hr, mapToInts_concrete u v hu hv]
    rfl
  have hgt : vGt u v =
      .ok (pyLt ((List.zipWith (fun a b => a.const - b.const) u v).map (fun x => -x))
        (List.replicate v.length 0)) := by
    unfold vGt vLt
    rw [if_pos hr, if_pos hr.symm, mapToInts_concrete v u hv hu, zipWith_diff_comm]
    rfl
  have heq : vEq u v = .ok (decide (u = v)) := by
    unfold vEq
    rw [if_pos hr]
  have hiff := concrete_eq_iff_diff_zero u v hr hu hv
  constructor
  · refine ⟨?_, ?_, ?_, ?_⟩
    · rcases pyLt_zeros_trichotomy
        (List.zipWith (fun (a b : SExpr V) => a.const - b.const) u v) with h | h | h
      · left
        rw [hlt, ← hdlen]
        rw [h]
      · right
        left
        rw [heq]
        rw [hdlen] at h
        simp [hiff.mpr h]
      · right
        right
        rw [hgt, ← hr, ← hdlen]
        rw [h]
    · rintro ⟨h1, h2⟩
      rw [heq] at h2
      have hud : u = v := by simpa using h2
      have hd := hiff.mp hud
      rw [hlt, hd] at h1
      rw [pyLt_replicate_zero] at h1
      cases h1
    · rintro ⟨h1, h2⟩
      rw [hlt] at h1
      rw [hgt] at h2
      rw [← hdlen] at h1
      rw [← hr, ← hdlen] at h2
      rw [pyLt_zeros_not_both _ (by exact_mod_cast congrArg (fun x => x) (by injection h1))] at h2
      cases h2
    · rintro ⟨h1, h2⟩
      rw [heq] at h1
      have hud : u = v := by simpa using h1
      have hd := hiff.mp hud
      rw [hgt, hd, ← hr] at h2
      rw [List.map_replicate] at h2
      simp only [neg_zero] at h2
      rw [pyLt_replicate_zero] at h2
      cases h2
  · unfold vDistance vSub
    rw [if_pos hr, if_pos hr.symm]
    rw [zipWith_sub_comm u v]
    rfl

/-- Witness for C3 on the concrete vectors `(3,)` and `(5,)`. -/
theorem c3_vector_trichotomy_witness :
    cvec3.length = cvec5.length ∧
    (∀ e ∈ cvec3, e.concrete) ∧ (∀ e ∈ cvec5, e.concrete) ∧
    (((vLt cvec3 cvec5 = .ok true ∨ vEq cvec3 cvec5 = .ok true ∨
        vGt cvec3 cvec5 = .ok true) ∧
      ¬(vLt cvec3 cvec5 = .ok true ∧ vEq cvec3 cvec5 = .ok true) ∧
      ¬(vLt cvec3 cvec5 = .ok true ∧ vGt cvec3 cvec5 = .ok true) ∧
      ¬(vEq cvec3 cvec5 = .ok true ∧ vGt cvec3 cvec5 = .ok true)) ∧
     vDistance cvec3 cvec5 = (vDistance cvec5 cvec3).map (List.map SExpr.neg)) :=
  ⟨rfl, by decide, by decide,
   c3_vector_trichotomy cvec3 cvec5 rfl (by decide) (by decide)⟩

theorem mem_ite_singleton {α : Type} (a x : α) (p : Prop) [Decidable p] :
    (a ∈ if p then [x] else []) ↔ p ∧ a = x := by
  by_cases hp : p <;> simp [hp]

theorem mem_hsCompHalos (f : HFun) (dims : List Dim) (dspace : Option DSpace)
    (dm : Dim) (sd : Side) (am : Int) :
    (⟨dm, sd, am⟩ : Halo) ∈ hsCompHalos f dims dspace ↔
      dm ∈ dims ∧ 0 < am ∧
      ((sd = .left ∧ am = lsizeOf f dspace dm) ∨
       (sd = .right ∧ am = rsizeOf f dspace dm)) := by
  unfold hsCompHalos
  simp only [List.mem_flatMap, List.mem_append, mem_ite_singleton, Halo.mk.injEq]
  constructor
  · rintro ⟨d, hd, ⟨hp, rfl, rfl, rfl⟩ | ⟨hp, rfl, rfl, rfl⟩⟩
    · exact ⟨hd, hp, Or.inl ⟨rfl, rfl⟩⟩
    · exact ⟨hd, hp, Or.inr ⟨rfl, rfl⟩⟩
  · rintro ⟨hd, hp, ⟨rfl, rfl⟩ | ⟨rfl, rfl⟩⟩
    · exact ⟨dm, hd, Or.inl ⟨hp, rfl, rfl, rfl⟩⟩
    · exact ⟨dm, hd, Or.inr ⟨hp, rfl, rfl, rfl⟩⟩

theorem mem_filter_map_fst (v : List (Dim × HaloLabel)) (l : HaloLabel) (dm : Dim) :
    dm ∈ (v.filter (fun p => p.2 == l)).map (·.1) ↔ (dm, l) ∈ v := by
  simp only [List.mem_map, List.mem_filter, beq_iff_eq]
  constructor
  · rintro ⟨⟨p1, p2⟩, ⟨hpv, rfl⟩, rfl⟩
    exact hpv
  · intro hv
    exact ⟨(dm, l), ⟨hv, rfl⟩, rfl⟩

/-- C5: a `Halo` record appears in the computed halos exactly when its
dimension is labeled `STENCIL` with amount "domain offset minus
data-space lower bound" (left) or "data-space upper bound minus domain
offset" (right), or labeled `FULL` with the full allocated halo extent
on that side — and in either case only when the amount is strictly
positive. -/
theorem c5_halo_amounts (f : HFun) (v : List (Dim × HaloLabel)) (ds : DSpace)
    (dm : Dim) (sd : Side) (am : Int) :
    (⟨dm, sd, am⟩ : Halo) ∈ hsHalosFor f v ds ↔
      0 < am ∧
      (((dm, HaloLabel.stencil) ∈ v ∧
        ((sd = .left ∧ am = (f.offsetDomain dm).1 - (ds dm.root).1) ∨
         (sd = .right ∧ am = (ds dm.root).2 - (f.offsetDomain dm).2))) ∨
       ((dm, HaloLabel.full) ∈ v ∧
        ((sd = .left ∧ am = (f.extentHalo dm).1) ∨
         (sd = .right ∧ am = (f.extentHalo dm).2)))) := by
  unfold hsHalosFor
  rw [List.mem_append, mem_hsCompHalos, mem_hsCompHalos,
    mem_filter_map_fst, mem_filter_map_fst]
  simp only [lsizeOf, rsizeOf]
  tauto

theorem uniqueLabel_ok_iff (hl : List HaloLabel) (l : HaloLabel) :
    uniqueLabel hl = .ok l ↔ (hl ≠ [] ∧ ∀ x ∈ hl, x = l) := by
  cases hl with
  | nil => simp [uniqueLabel]
  | cons l0 ls =>
    simp only [uniqueLabel]
    by_cases hall : ls.all (· == l0)
    · rw [if_pos hall]
      simp only [List.all_eq_true, beq_iff_eq] at hall
      constructor
      · intro h
        injection h with h
        subst h
        exact ⟨List.cons_ne_nil _ _, by
          intro x hx
          rcases List.mem_cons.mp hx with rfl | hx
          · rfl
          · exact hall x hx⟩
      · rintro ⟨-, h⟩
        rw [h l0 (by simp)]
    · rw [if_neg hall]
      simp only [List.all_eq_true, beq_iff_eq] at hall
      push_neg at hall
      obtain ⟨x, hx, hxl⟩ := hall
      constructor
      · intro h
        cases h
      · rintro ⟨-, h⟩
        exact absurd ((h x (by simp [hx])).trans (h l0 (by simp)).symm) hxl

theorem uniqueLabel_error_iff (hl : List HaloLabel) :
    uniqueLabel hl = .error () ↔ ¬ uniqueOne hl := by
  constructor
  · intro h hone
    obtain ⟨l, hne, hall⟩ := hone
    rw [(uniqueLabel_ok_iff hl l).mpr ⟨hne, hall⟩] at h
    cases h
  · intro h
    cases hres : uniqueLabel hl with
    | error e => cases e; rfl
    | ok l =>
      obtain ⟨hne, hall⟩ := (uniqueLabel_ok_iff hl l).mp hres
      exact absurd ⟨l, hne, hall⟩ h

theorem reduceLabels_error_iff :
    ∀ v : List (Dim × List HaloLabel),
      reduceLabels v = .error () ↔ ∃ p ∈ v, ¬ uniqueOne p.2
  | [] => by simp [reduceLabels]
  | (d, hl) :: rest => by
    simp only [reduceLabels]
    cases hu : uniqueLabel hl with
    | error e =>
      cases e
      simp only [except_bind_error]
      constructor
      · intro _
        exact ⟨(d, hl), by simp, (uniqueLabel_error_iff hl).mp hu⟩
      · intro _
        trivial
    | ok l =>
      have hone : uniqueOne hl := by
        obtain ⟨hne, hall⟩ := (uniqueLabel_ok_iff hl l).mp hu
        exact ⟨l, hne, hall⟩
      cases hrest : reduceLabels rest with
      | error e =>
        cases e
        constructor
        · intro _
          obtain ⟨p, hp, hnp⟩ := (reduceLabels_error_iff rest).mp hrest
          exact ⟨p, by simp [hp], hnp⟩
        · intro _
          rfl
      | ok r =>
        constructor
        · intro h
          cases h
        · rintro ⟨p, hp, hnp⟩
          rcases List.mem_cons.mp hp with rfl | hp
          · exact absurd hone hnp
          · exact absurd hrest (by
              rw [(reduceLabels_error_iff rest).mpr ⟨p, hp, hnp⟩]
              intro h
              cases h)

theorem reduceLabels_ok :
    ∀ (v : List (Dim × List HaloLabel)) (m : List (Dim × HaloLabel)),
      reduceLabels v = .ok m → List.Forall₂ labelsReduced v m
  | [], m, h => by
    injection h with h
    subst h
    exact List.Forall₂.nil
  | (d, hl) :: rest, m, h => by
    simp only [reduceLabels] at h
    cases hu : uniqueLabel hl with
    | error e =>
      rw [hu] at h
      cases h
    | ok l =>
      rw [hu] at h
      cases hrest : reduceLabels rest with
      | error e =>
        rw [hrest] at h
        cases h
      | ok r =>
        rw [hrest] at h
        injection h with h
        subst h
        obtain ⟨hne, hall⟩ := (uniqueLabel_ok_iff hl l).mp hu
        exact List.Forall₂.cons ⟨rfl, hne, hall⟩ (reduceLabels_ok rest r hrest)

theorem reduceAll_error_iff :
    ∀ s : List (HFn × List (Dim × List HaloLabel)),
      reduceAll s = .error () ↔ ∃ p ∈ s, ∃ q ∈ p.2, ¬ uniqueOne q.2
  | [] => by simp [reduceAll]
  | (f, v) :: rest => by
    simp only [reduceAll]
    cases hv : reduceLabels v with
    | error e =>
      cases e
      simp only [except_bind_error]
      constructor
      · intro _
        obtain ⟨q, hq, hnq⟩ := (reduceLabels_error_iff v).mp hv
        exact ⟨(f, v), by simp, q, hq, hnq⟩
      · intro _
        trivial
    | ok v' =>
      cases hrest : reduceAll rest with
      | error e =>
        cases e
        constructor
        · intro _
          obtain ⟨p, hp, hq⟩ := (reduceAll_error_iff rest).mp hrest
          exact ⟨p, by simp [hp], hq⟩
        · intro _
          rfl
      | ok r =>
        constructor
        · intro h
          cases h
        · rintro ⟨p, hp, q, hq, hnq⟩
          rcases List.mem_cons.mp hp with rfl | hp
          · exact absurd hv (by
              rw [(reduceLabels_error_iff v).mpr ⟨q, hq, hnq⟩]
              intro h
              cases h)
          · exact absurd hrest (by
              rw [(reduceAll_error_iff rest).mpr ⟨p, hp, q, hq, hnq⟩]
              intro h
              cases h)

theorem reduceAll_ok :
    ∀ (s : List (HFn × List (Dim × List HaloLabel)))
      (m : List (HFn × List (Dim × HaloLabel))),
      reduceAll s = .ok m →
      List.Forall₂ (fun p p' => p.1 = p'.1 ∧ List.Forall₂ labelsReduced p.2 p'.2) s m
  | [], m, h => by
    injection h with h
    subst h
    exact List.Forall₂.nil
  | (f, v) :: rest, m, h => by
    simp only [reduceAll] at h
    cases hv : reduceLabels v with
    | error e =>
      rw [hv] at h
      cases h
    | ok v' =>
      rw [hv] at h
      cases hrest : reduceAll rest with
      | error e =>
        rw [hrest] at h
        cases h
      | ok r =>
        rw [hrest] at h
        injection h with h
        subst h
        exact List.Forall₂.cons ⟨rfl, reduceLabels_ok v v' hv⟩
          (reduceAll_ok rest r hrest)

/-- C6: halo-scheme classification raises the halo-scheme failure
exactly when the labels collected for some (array, dimension) pair do
not reduce to one unique label; when it succeeds, every collected pair
is assigned its unique label. -/
theorem c6_classification_unique (scope : List (HFn × List ReadAcc)) :
    (hsClassify scope = .error () ↔
      ∃ p ∈ collectAll scope, ∃ q ∈ p.2, ¬ uniqueOne q.2) ∧
    ∀ m, hsClassify scope = .ok m →
      List.Forall₂ (fun p p' => p.1 = p'.1 ∧ List.Forall₂ labelsReduced p.2 p'.2)
        (collectAll scope) m :=
  ⟨reduceAll_error_iff (collectAll scope),
   fun m h => reduceAll_ok (collectAll scope) m h⟩

/-- Witness for C6 on a one-object scope whose single read is affine in
its one distributed dimension. -/
theorem c6_classification_unique_witness :
    hsClassify hscope0 = .ok hsm0 ∧
    List.Forall₂ (fun p p' => p.1 = p'.1 ∧ List.Forall₂ labelsReduced p.2 p'.2)
      (collectAll hscope0) hsm0 :=
  ⟨rfl, (c6_classification_unique hscope0).2 hsm0 rfl⟩

theorem enumFrom_map_snd {α : Type} : ∀ (n : Nat) (l : List α),
    (enumFrom n l).map Prod.snd = l
  | _, [] => rfl
  | n, a :: as => by simp [enumFrom, enumFrom_map_snd (n + 1) as]

theorem snd_mem_of_mem_enumFrom {α : Type} {p : Nat × α} {n : Nat} {l : List α}
    (h : p ∈ enumFrom n l) : p.2 ∈ l := by
  rw [← enumFrom_map_snd n l]
  exact List.mem_map_of_mem _ h

theorem exists_mem_enumFrom_of_mem {α : Type} {a : α} :
    ∀ {l : List α} (n : Nat), a ∈ l → ∃ i, (i, a) ∈ enumFrom n l
  | [], _, h => absurd h (List.not_mem_nil a)
  | b :: bs, n, h => by
    rcases List.mem_cons.mp h with rfl | h
    · exact ⟨n, by simp [enumFrom]⟩
    · obtain ⟨i, hi⟩ := exists_mem_enumFrom_of_mem (n + 1) h
      exact ⟨i, by simp [enumFrom, hi]⟩

theorem mem_firstDedup {α : Type} [DecidableEq α] (x : α) :
    ∀ l : List α, x ∈ firstDedup l ↔ x ∈ l := by
  intro l
  induction l using firstDedup.induct with
  | case1 => simp [firstDedup]
  | case2 a as ih =>
    rw [firstDedup]
    simp only [List.mem_cons, ih, List.mem_filter]
    constructor
    · rintro (rfl | ⟨hx, _⟩)
      · left
        rfl
      · right
        exact hx
    · rintro (rfl | hx)
      · left
        rfl
      · by_cases hxa : x = a
        · left
          exact hxa
        · right
          exact ⟨hx, by simpa using hxa⟩

theorem mem_sWrites_iff {V : Nat} (exprs : List (EqIR V)) (f : Fn)
    (ta : TimedAccess V) :
    ta ∈ sWrites exprs f ↔ ∃ p ∈ enumFrom 0 exprs,
      ∃ ix, p.2.lhs = some ix ∧ ix.fn = f ∧ ta = mkTA ix .write p.1 := by
  unfold sWrites
  rw [List.mem_flatMap]
  constructor
  · rintro ⟨p, hp, hmem⟩
    split at hmem
    · rename_i ix hl
      by_cases hfn : (ix.fn == f) = true
      · rw [if_pos hfn] at hmem
        have hta := List.mem_singleton.mp hmem
        subst hta
        exact ⟨p, hp, ix, hl, by simpa using hfn, rfl⟩
      · rw [if_neg hfn] at hmem
        cases hmem
    · cases hmem
  · rintro ⟨p, hp, ix, hl, hfn, rfl⟩
    refine ⟨p, hp, ?_⟩
    split
    · rename_i ix' hl'
      rw [hl] at hl'
      injection hl' with hl'
      subst hl'
      rw [if_pos (by simp [hfn])]
      simp
    · rename_i hl'
      rw [hl] at hl'
      cases hl'

theorem writeFns_iff {V : Nat} (exprs : List (EqIR V)) (f : Fn) :
    f ∈ writeFns exprs ↔ ∃ e ∈ exprs, ∃ ix, e.lhs = some ix ∧ ix.fn = f := by
  unfold writeFns
  rw [mem_firstDedup]
  simp only [List.mem_map, List.mem_filterMap]
  constructor
  · rintro ⟨ix, ⟨e, he, hl⟩, hfn⟩
    exact ⟨e, he, ix, hl, hfn⟩
  · rintro ⟨e, he, ix, hl, hfn⟩
    exact ⟨ix, ⟨e, he, hl⟩, hfn⟩

theorem mem_writeFns {V : Nat} (exprs : List (EqIR V)) (f : Fn) :
    f ∈ writeFns exprs ↔ sWrites exprs f ≠ [] := by
  rw [writeFns_iff]
  constructor
  · rintro ⟨e, he, ix, hl, hfn⟩
    obtain ⟨i, hi⟩ := exists_mem_enumFrom_of_mem 0 he
    have : mkTA ix .write i ∈ sWrites exprs f :=
      (mem_sWrites_iff exprs f _).mpr ⟨(i, e), hi, ix, hl, hfn, rfl⟩
    exact List.ne_nil_of_mem this
  · intro h
    obtain ⟨ta, hta⟩ := List.exists_mem_of_ne_nil _ h
    obtain ⟨p, hp, ix, hl, hfn, -⟩ := (mem_sWrites_iff exprs f ta).mp hta
    exact ⟨p.2, snd_mem_of_mem_enumFrom hp, ix, hl, hfn⟩

theorem isFlow_iff_flowCond {V : Nat} (w r : TimedAccess V) :
    isFlow w r = true ↔ flowCond w r := by
  unfold isFlow flowCond
  cases hlt : taLt r w with
  | error e =>
    cases e
    simp
  | ok b =>
    cases b
    · cases heq : taEq r w with
      | error e =>
        cases e
        simp
      | ok eb =>
        cases eb
        · simp
        · simp
    · simp

/-- C1: `Scope.d_flow` holds a dependence with source `w` and sink `r`
exactly for the pairs of a write `w` and a read `r` of the same data
object such that `r < w` in iteration-space order, or the two are
iteration-space-equal with `r`'s timestamp at least `w`'s, or their
comparison raises (symbolic incomparability, included
conservatively). -/
theorem c1_dflow_characterization {V : Nat} (exprs : List (EqIR V))
    (w r : TimedAccess V) :
    (w, r) ∈ dFlowPairs exprs ↔
      ∃ f, w ∈ sWrites exprs f ∧ r ∈ sReads exprs f ∧ flowCond w r := by
  unfold dFlowPairs
  simp only [List.mem_flatMap, List.mem_map, List.mem_filter, Prod.mk.injEq]
  constructor
  · rintro ⟨f, hf, w', hw', r', ⟨hr', hflow⟩, rfl, rfl⟩
    exact ⟨f, hw', hr', (isFlow_iff_flowCond w' r').mp hflow⟩
  · rintro ⟨f, hw, hr, hflow⟩
    refine ⟨f, ?_, w, hw, r, ⟨hr, (isFlow_iff_flowCond w r).mpr hflow⟩, rfl, rfl⟩
    rw [mem_writeFns]
    exact List.ne_nil_of_mem hw

theorem copyOutputs_store_lt (outputs : List Nat) :
    ∀ (args : List (Nat × Val)) (st : Store) (c a : Nat), a < c →
      (copyOutputs outputs args st c).2 a = st a
  | [], _, _, _, _ => rfl
  | (k, v) :: rest, st, c, a, ha => by
    simp only [copyOutputs]
    by_cases hk : k ∈ outputs
    · rw [if_pos hk]
      cases v with
      | buf b =>
        rw [copyOutputs_store_lt outputs rest _ (c + 1) a (Nat.lt_succ_of_lt ha)]
        unfold Store.upd
        rw [if_neg (by omega)]
      | num n =>
        exact copyOutputs_store_lt outputs rest st c a ha
    · rw [if_neg hk]
      exact copyOutputs_store_lt outputs rest st c a ha

theorem mem_outAddrs (outputs : List Nat) (args : List (Nat × Val)) (x : Nat) :
    x ∈ outAddrs outputs args ↔ ∃ p ∈ args, p.1 ∈ outputs ∧ p.2 = Val.buf x := by
  unfold outAddrs
  simp only [List.mem_filterMap, List.mem_filter, decide_eq_true_eq]
  constructor
  · rintro ⟨p, ⟨hpa, hpo⟩, hm⟩
    cases hv : p.2 with
    | num n =>
      rw [hv] at hm
      cases hm
    | buf b =>
      rw [hv] at hm
      injection hm with hm
      subst hm
      exact ⟨p, hpa, hpo, hv⟩
  · rintro ⟨p, hpa, hpo, hv⟩
    exact ⟨p, ⟨hpa, hpo⟩, by rw [hv]⟩

theorem copyOutputs_outAddrs_ge (outputs : List Nat) :
    ∀ (args : List (Nat × Val)) (st : Store) (c x : Nat),
      x ∈ outAddrs outputs (copyOutputs outputs args st c).1 → c ≤ x
  | [], _, _, _, h => absurd h (by simp [outAddrs, copyOutputs])
  | (k, v) :: rest, st, c, x, h => by
    simp only [copyOutputs] at h
    by_cases hk : k ∈ outputs
    · rw [if_pos hk] at h
      cases v with
      | buf b =>
        rw [mem_outAddrs] at h
        obtain ⟨p, hp, hpo, hv⟩ := h
        rcases List.mem_cons.mp hp with rfl | hp
        · injection hv with hv
          omega
        · have : x ∈ outAddrs outputs (copyOutputs outputs rest (st.upd c (st b)) (c + 1)).1 :=
            (mem_outAddrs _ _ _).mpr ⟨p, hp, hpo, hv⟩
          have := copyOutputs_outAddrs_ge outputs rest _ (c + 1) x this
          omega
      | num n =>
        rw [mem_outAddrs] at h
        obtain ⟨p, hp, hpo, hv⟩ := h
        rcases List.mem_cons.mp hp with rfl | hp
        · cases hv
        · exact copyOutputs_outAddrs_ge outputs rest st c x
            ((mem_outAddrs _ _ _).mpr ⟨p, hp, hpo, hv⟩)
    · rw [if_neg hk] at h
      rw [mem_outAddrs] at h
      obtain ⟨p, hp, hpo, hv⟩ := h
      rcases List.mem_cons.mp hp with rfl | hp
      · exact absurd hpo hk
      · exact copyOutputs_outAddrs_ge outputs rest st c x
          ((mem_outAddrs _ _ _).mpr ⟨p, hp, hpo, hv⟩)

theorem foldl_max_init_le : ∀ (l : List Nat) (init : Nat), init ≤ l.foldl max init
  | [], _ => Nat.le_refl _
  | b :: bs, init =>
    Nat.le_trans (Nat.le_max_left init b) (foldl_max_init_le bs (max init b))

theorem le_foldl_max : ∀ (l : List Nat) (init a : Nat), a ∈ l → a ≤ l.foldl max init
  | [], _, a, h => absurd h (List.not_mem_nil a)
  | b :: bs, init, a, h => by
    rcases List.mem_cons.mp h with rfl | h
    · exact Nat.le_trans (Nat.le_max_right init a) (foldl_max_init_le bs _)
    · exact le_foldl_max bs _ a h

theorem buf_le_maxAddr (args : List (Nat × Val)) (k a : Nat)
    (h : (k, Val.buf a) ∈ args) : a ≤ maxAddr args := by
  unfold maxAddr
  refine le_foldl_max _ 0 a ?_
  rw [List.mem_filterMap]
  exact ⟨(k, Val.buf a), h, rfl⟩

theorem lookup_mem {k : Nat} {v : Val} :
    ∀ {args : List (Nat × Val)}, args.lookup k = some v → (k, v) ∈ args
  | [], h => by cases h
  | (k', v') :: rest, h => by
    cases hk : k == k' with
    | true =>
      simp only [List.lookup_cons, hk] at h
      injection h with h
      subst h
      have : k = k' := by simpa using hk
      subst this
      simp
    | false =>
      simp only [List.lookup_cons, hk] at h
      exact List.mem_cons_of_mem _ (lookup_mem h)

theorem lookup_tuned (mapperKeys : List Nat) (best : Nat → Int) :
    ∀ (args : List (Nat × Val)) (k : Nat) (v : Val), k ∉ mapperKeys →
      args.lookup k = some v →
      (args.map (fun kv =>
        (kv.1, if kv.1 ∈ mapperKeys then Val.num (best kv.1) else kv.2))).lookup k
        = some v
  | [], _, _, _, h => by cases h
  | (k', v') :: rest, k, v, hmk, h => by
    simp only [List.map_cons]
    cases hk : k == k' with
    | true =>
      simp only [List.lookup_cons, hk] at h ⊢
      injection h with h
      subst h
      have : k = k' := by simpa using hk
      subst this
      rw [if_neg hmk]
    | false =>
      simp only [List.lookup_cons, hk] at h ⊢
      exact lookup_tuned mapperKeys best rest k v hmk h

/-- C9: after `autotune` returns, every output buffer bound in the
original arguments is unchanged by the trial runs — the trials mutate
only the freshly allocated copies — and the returned mapping (whether
tuning succeeded or not) binds the original, unmutated buffer. -/
theorem c9_output_buffers_preserved (outputs mapperKeys : List Nat)
    (winner : Option (Nat → Int)) (args : List (Nat × Val)) (st : Store)
    (effect : Nat → List Int) (k a : Nat)
    (hmk : k ∉ mapperKeys) (hlk : args.lookup k = some (Val.buf a)) :
    (autotuneMem outputs mapperKeys winner args st effect).2 a = st a ∧
    (autotuneMem outputs mapperKeys winner args st effect).1.lookup k
      = some (Val.buf a) := by
  have hmem : (k, Val.buf a) ∈ args := lookup_mem hlk
  have hle : a ≤ maxAddr args := buf_le_maxAddr args k a hmem
  have hstore : ∀ w : Option (Nat → Int),
      (autotuneMem outputs mapperKeys w args st effect).2 a = st a := by
    intro w
    have h2 : (autotuneMem outputs mapperKeys w args st effect).2 =
        runTrials effect
          (outAddrs outputs (copyOutputs outputs args st (maxAddr args + 1)).1)
          (copyOutputs outputs args st (maxAddr args + 1)).2 := by
      unfold autotuneMem
      cases w <;> rfl
    rw [h2]
    unfold runTrials
    rw [if_neg (by
      intro hmem2
      have := copyOutputs_outAddrs_ge outputs args st (maxAddr args + 1) a hmem2
      omega)]
    exact copyOutputs_store_lt outputs args st (maxAddr args + 1) a (by omega)
  refine ⟨hstore winner, ?_⟩
  cases winner with
  | none =>
    show args.lookup k = some (Val.buf a)
    exact hlk
  | some best =>
    exact lookup_tuned mapperKeys best args k (Val.buf a) hmk hlk

/-- Witness for C9: one output buffer `b` at address 0 holding `[7]`,
one tunable argument, a trial that overwrites its output buffer, and a
winning candidate. -/
theorem c9_output_buffers_preserved_witness :
    (0 : Nat) ∉ ([1] : List Nat) ∧
    ([(0, Val.buf 0), (1, Val.num 4)].lookup 0 = some (Val.buf 0)) ∧
    ((autotuneMem [0] [1] (some (fun _ => 16)) [(0, Val.buf 0), (1, Val.num 4)]
        (fun _ => [7]) (fun _ => [9])).2 0 = (fun _ => [7] : Store) 0 ∧
     (autotuneMem [0] [1] (some (fun _ => 16)) [(0, Val.buf 0), (1, Val.num 4)]
        (fun _ => [7]) (fun _ => [9])).1.lookup 0 = some (Val.buf 0)) :=
  ⟨by decide, rfl,
   c9_output_buffers_preserved [0] [1] (some (fun _ => 16))
     [(0, Val.buf 0), (1, Val.num 4)] (fun _ => [7]) (fun _ => [9]) 0 0
     (by decide) rfl⟩

end Devito
